import Mathlib

/-!
Verification of the pendulum-chain simulator (`src/Main.cpp`).

The program keeps four global parallel containers:
  `std::vector<glm::vec2> pendulums`  -- per segment (length, mass)
  `std::vector<float> theta`          -- per segment angle
  `std::vector<float> omega`          -- per segment angular velocity
  `std::vector<float> pathVertices`   -- flattened (x, y) trail of the terminal tip

We embed the state and the operations `computePhysics`, the mouse handlers
(append on left click, remove on right click) and `initialize`, shallowly:
machine floats become elements of an arbitrary field `α`, with `sin` and
`cos` passed in as function parameters so that every definition stays
computable; theorems about trigonometric facts instantiate `α := ℝ`,
`sin := Real.sin`, `cos := Real.cos`.  The global constants
(`G`, `dt`, `INITIAL_LENGTH`, `INITIAL_MASS`, `M_PI`, `PATH_LIMIT`) become
explicit arguments of the embedded operations.
-/

set_option autoImplicit false

namespace Pendulums

/-- The global mutable state of `Main.cpp`: `pendulums`, `theta`, `omega`
and the flattened trail `pathVertices`. -/
structure PState (α : Type) where
  pendulums : List (α × α)
  theta : List α
  omega : List α
  pathVertices : List α
  deriving Repr, DecidableEq

/-- `initialize()` (Main.cpp:55-66): one pendulum `(INITIAL_LENGTH, INITIAL_MASS)`,
`theta = M_PI / 1.0f`, `omega` pushed as `0` and then overwritten with `0.5f`;
the trail vector starts empty. -/
def initChain {α : Type} [Field α] (INITIAL_LENGTH INITIAL_MASS piv : α) : PState α :=
  { pendulums := [(INITIAL_LENGTH, INITIAL_MASS)]
    theta := [piv / 1]
    omega := List.set [0] 0 (1 / 2)
    pathVertices := [] }

/-- Trail push (Main.cpp:86-90 and 134-138): if the flattened vector already
holds `PATH_LIMIT * 2` floats or more, erase the two oldest, then push `x`
and `y`. -/
def pushPath {α : Type} (PATH_LIMIT : Nat) (x y : α) (pv : List α) : List α :=
  (if PATH_LIMIT * 2 ≤ pv.length then pv.drop 2 else pv) ++ [x, y]

/-- The denominator `denom1 = (M1 + M2) * L1 - M2 * L1 * cos(deltaTheta) * cos(deltaTheta)`
of Main.cpp:102, with `c = cos deltaTheta`. -/
def denom1 {α : Type} [Field α] (M1 M2 L1 c : α) : α :=
  (M1 + M2) * L1 - M2 * L1 * c * c

/-- The denominator `denom2 = (L2 / L1) * denom1` of Main.cpp:103. -/
def denom2 {α : Type} [Field α] (L1 L2 d1 : α) : α :=
  (L2 / L1) * d1

/-- The acceleration pair `(a1, a2)` of Main.cpp:105-112, computed from the
current values `th1 = theta[i]`, `th2 = theta[i+1]`, `om1 = omega[i]`,
`om2 = omega[i+1]`. -/
def accelPair {α : Type} [Field α] (sin cos : α → α) (G L1 M1 L2 M2 th1 th2 om1 om2 : α) :
    α × α :=
  let deltaTheta := th2 - th1
  let d1 := denom1 M1 M2 L1 (cos deltaTheta)
  let d2 := denom2 L1 L2 d1
  let a1 := (M2 * L1 * om1 * om1 * sin deltaTheta * cos deltaTheta
      + M2 * G * sin th2 * cos deltaTheta
      + M2 * L2 * om2 * om2 * sin deltaTheta
      - (M1 + M2) * G * sin th1) / d1
  let a2 := ((-L1) / L2 * om1 * om1 * sin deltaTheta * cos deltaTheta
      + G * sin th1 * cos deltaTheta
      - G * sin th2) / d2
  (a1, a2)

/-- One iteration of the multi-pendulum loop body (Main.cpp:94-118) at index
`i`, acting on the pair (theta, omega); the body is guarded by
`i + 1 < pendulums.size()`.  The four in-place writes happen in source
order: `omega[i] += a1*dt; omega[i+1] += a2*dt; theta[i] += omega[i]*dt;
theta[i+1] += omega[i+1]*dt`, the theta updates reading the freshly
written omegas. -/
def pairUpdate {α : Type} [Field α] (sin cos : α → α) (G dt : α)
    (pend : List (α × α)) (i : Nat) (tw : List α × List α) : List α × List α :=
  if i + 1 < pend.length then
    let L1 := (pend.getD i (0, 0)).1
    let M1 := (pend.getD i (0, 0)).2
    let L2 := (pend.getD (i + 1) (0, 0)).1
    let M2 := (pend.getD (i + 1) (0, 0)).2
    let a := accelPair sin cos G L1 M1 L2 M2
      (tw.1.getD i 0) (tw.1.getD (i + 1) 0) (tw.2.getD i 0) (tw.2.getD (i + 1) 0)
    let om1 := tw.2.set i (tw.2.getD i 0 + a.1 * dt)
    let om2 := om1.set (i + 1) (om1.getD (i + 1) 0 + a.2 * dt)
    let th1 := tw.1.set i (tw.1.getD i 0 + om2.getD i 0 * dt)
    let th2 := th1.set (i + 1) (th1.getD (i + 1) 0 + om2.getD (i + 1) 0 * dt)
    (th2, om2)
  else tw

/-- The terminal-tip fold of Main.cpp:122-132: starting from the anchor
`(0, 0.5)`, accumulate `x += L_i * sin(theta_i); y -= L_i * cos(theta_i)`
over every segment. -/
def chainTip {α : Type} [Field α] (sin cos : α → α)
    (pend : List (α × α)) (th : List α) : α × α :=
  (List.range pend.length).foldl
    (fun p i =>
      (p.1 + (pend.getD i (0, 0)).1 * sin (th.getD i 0),
       p.2 - (pend.getD i (0, 0)).1 * cos (th.getD i 0)))
    (0, 1 / 2)

/-- `computePhysics()` (Main.cpp:68-141).  Branch on `pendulums.size() < 2`:
the single-pendulum branch does semi-implicit Euler with
`a1 = (-G / L1) * sin(theta[0])` and then pushes the tip onto the trail;
the multi-pendulum branch runs the guarded pairwise loop over
`i = 0 .. size-1` and then (`if (!pendulums.empty())`) pushes the terminal
tip computed from the updated angles. -/
def computePhysics {α : Type} [Field α] (sin cos : α → α) (G dt : α)
    (PATH_LIMIT : Nat) (s : PState α) : PState α :=
  if s.pendulums.length < 2 then
    let L1 := (s.pendulums.getD 0 (0, 0)).1
    let a1 := (-G / L1) * sin (s.theta.getD 0 0)
    let om := s.omega.set 0 (s.omega.getD 0 0 + a1 * dt)
    let th := s.theta.set 0 (s.theta.getD 0 0 + om.getD 0 0 * dt)
    let x := 0 + L1 * sin (th.getD 0 0)
    let y := 1 / 2 - L1 * cos (th.getD 0 0)
    { s with theta := th, omega := om,
             pathVertices := pushPath PATH_LIMIT x y s.pathVertices }
  else
    let tw := (List.range s.pendulums.length).foldl
      (fun tw i => pairUpdate sin cos G dt s.pendulums i tw) (s.theta, s.omega)
    if s.pendulums.isEmpty then
      { s with theta := tw.1, omega := tw.2 }
    else
      let tip := chainTip sin cos s.pendulums tw.1
      { s with theta := tw.1, omega := tw.2,
               pathVertices := pushPath PATH_LIMIT tip.1 tip.2 s.pathVertices }

/-- The left-click handler (Main.cpp:227-243): guarded by
`!pendulums.empty()`, push `(INITIAL_LENGTH, INITIAL_MASS)`,
`theta` gets `M_PI / 4.0f`, `omega` gets `0`.  (The handler also computes a
tip position from anchor `(0, 0.75)` into locals `x`, `y` that it never
uses; being dead pure code, it is omitted.) -/
def appendSegment {α : Type} [Field α] (INITIAL_LENGTH INITIAL_MASS piv : α)
    (s : PState α) : PState α :=
  if s.pendulums.isEmpty then s
  else
    { s with pendulums := s.pendulums ++ [(INITIAL_LENGTH, INITIAL_MASS)]
             theta := s.theta ++ [piv / 4]
             omega := s.omega ++ [0] }

/-- The right-click handler (Main.cpp:244-255): if more than one pendulum,
pop the last element of all three parallel vectors; if exactly one, clear
the trail and keep the pendulum. -/
def removeSegment {α : Type} (s : PState α) : PState α :=
  if 1 < s.pendulums.length then
    { s with pendulums := s.pendulums.dropLast
             theta := s.theta.dropLast
             omega := s.omega.dropLast }
  else if s.pendulums.length = 1 then
    { s with pathVertices := [] }
  else s

/-- The spec's well-formedness invariant:
`len(segments) == len(theta) == len(omega) >= 1`. -/
def goodState {α : Type} (s : PState α) : Prop :=
  s.pendulums.length = s.theta.length ∧ s.theta.length = s.omega.length ∧
    1 ≤ s.pendulums.length

/-- Modelled from the spec (section 4.2, Case B pseudocode): the pairwise
double-pendulum update written with the spec's surface syntax
(`cos(deltaTheta)^2`, `omega1^2`, ...), with no loop guard; the spec's loop
runs `i` from `0` to `count - 2`. -/
def specAccelPair {α : Type} [Field α] (sin cos : α → α) (G L1 M1 L2 M2 th1 th2 om1 om2 : α) :
    α × α :=
  let dT := th2 - th1
  let d1 := (M1 + M2) * L1 - M2 * L1 * cos dT ^ 2
  let d2 := (L2 / L1) * d1
  let a1 := (M2 * L1 * om1 ^ 2 * sin dT * cos dT
      + M2 * G * sin th2 * cos dT
      + M2 * L2 * om2 ^ 2 * sin dT
      - (M1 + M2) * G * sin th1) / d1
  let a2 := (-(L1 / L2) * om1 ^ 2 * sin dT * cos dT
      + G * sin th1 * cos dT
      - G * sin th2) / d2
  (a1, a2)

/-- Modelled from the spec (section 4.2, Case B): one iteration of the
spec's loop, updating `omega[i] += a1*dt; omega[i+1] += a2*dt;
theta[i] += omega[i]*dt; theta[i+1] += omega[i+1]*dt` in place. -/
def specPairUpdate {α : Type} [Field α] (sin cos : α → α) (G dt : α)
    (pend : List (α × α)) (i : Nat) (tw : List α × List α) : List α × List α :=
  let L1 := (pend.getD i (0, 0)).1
  let M1 := (pend.getD i (0, 0)).2
  let L2 := (pend.getD (i + 1) (0, 0)).1
  let M2 := (pend.getD (i + 1) (0, 0)).2
  let a := specAccelPair sin cos G L1 M1 L2 M2
    (tw.1.getD i 0) (tw.1.getD (i + 1) 0) (tw.2.getD i 0) (tw.2.getD (i + 1) 0)
  let om1 := tw.2.set i (tw.2.getD i 0 + a.1 * dt)
  let om2 := om1.set (i + 1) (om1.getD (i + 1) 0 + a.2 * dt)
  let th1 := tw.1.set i (tw.1.getD i 0 + om2.getD i 0 * dt)
  let th2 := th1.set (i + 1) (th1.getD (i + 1) 0 + om2.getD (i + 1) 0 * dt)
  (th2, om2)

/-- Modelled from the spec (section 4.2, Case B): the whole pass, `i` from
`0` to `count - 2` in increasing order. -/
def specChainStep {α : Type} [Field α] (sin cos : α → α) (G dt : α)
    (pend : List (α × α)) (th om : List α) : List α × List α :=
  (List.range (pend.length - 1)).foldl
    (fun tw i => specPairUpdate sin cos G dt pend i tw) (th, om)

/-- The per-segment tip recurrence of the render loop (Main.cpp:182-185),
threading the previous tip, over the zipped (segment, angle) list. -/
def tipPositionsAux {α : Type} [Field α] (sin cos : α → α) :
    α × α → List ((α × α) × α) → List (α × α)
  | _, [] => []
  | prev, (seg, t) :: rest =>
    let x := prev.1 + seg.1 * sin t
    let y := prev.2 - seg.1 * cos t
    (x, y) :: tipPositionsAux sin cos (x, y) rest

/-- `computeTipPositions(chain, anchor)`: the ordered sequence of every
segment's tip, by the forward recurrence from the anchor
(Main.cpp:182-185). -/
def tipPositions {α : Type} [Field α] (sin cos : α → α) (anchor : α × α)
    (pend : List (α × α)) (th : List α) : List (α × α) :=
  tipPositionsAux sin cos anchor (pend.zip th)

/-- Flatten a list of 2D points into the interleaved x,y representation of
`pathVertices`. -/
def flattenPoints {α : Type} : List (α × α) → List α
  | [] => []
  | p :: r => p.1 :: p.2 :: flattenPoints r

/-- The tip appended at each of the first `n` ticks: tick `k + 1` appends
the terminal tip of the state after `k + 1` steps. -/
def tickTips {α : Type} [Field α] (sin cos : α → α) (G dt : α) (PATH_LIMIT : Nat)
    (s : PState α) (n : Nat) : List (α × α) :=
  (List.range n).map (fun k =>
    chainTip sin cos
      ((computePhysics sin cos G dt PATH_LIMIT)^[k + 1] s).pendulums
      ((computePhysics sin cos G dt PATH_LIMIT)^[k + 1] s).theta)

lemma pairUpdate_length {α : Type} [Field α] (sin cos : α → α) (G dt : α)
    (pend : List (α × α)) (i : Nat) (tw : List α × List α) :
    (pairUpdate sin cos G dt pend i tw).1.length = tw.1.length ∧
    (pairUpdate sin cos G dt pend i tw).2.length = tw.2.length := by
  rw [pairUpdate]
  split <;> simp

lemma foldl_pairUpdate_length {α : Type} [Field α] (sin cos : α → α) (G dt : α)
    (pend : List (α × α)) (l : List Nat) :
    ∀ tw : List α × List α,
      ((l.foldl (fun tw i => pairUpdate sin cos G dt pend i tw) tw).1.length = tw.1.length ∧
       (l.foldl (fun tw i => pairUpdate sin cos G dt pend i tw) tw).2.length = tw.2.length) := by
  induction l with
  | nil => intro tw; exact ⟨rfl, rfl⟩
  | cons a l ih =>
    intro tw
    rw [List.foldl_cons]
    have h := pairUpdate_length sin cos G dt pend a tw
    have h2 := ih (pairUpdate sin cos G dt pend a tw)
    exact ⟨h2.1.trans h.1, h2.2.trans h.2⟩

lemma computePhysics_pendulums {α : Type} [Field α] (sin cos : α → α) (G dt : α)
    (PL : Nat) (s : PState α) :
    (computePhysics sin cos G dt PL s).pendulums = s.pendulums := by
  by_cases h : s.pendulums.length < 2
  · simp [computePhysics, h]
  · by_cases h2 : s.pendulums.isEmpty <;> simp [computePhysics, h, h2]

lemma computePhysics_theta_omega_length {α : Type} [Field α] (sin cos : α → α)
    (G dt : α) (PL : Nat) (s : PState α) :
    (computePhysics sin cos G dt PL s).theta.length = s.theta.length ∧
    (computePhysics sin cos G dt PL s).omega.length = s.omega.length := by
  by_cases h : s.pendulums.length < 2
  · simp [computePhysics, h]
  · have hfold := foldl_pairUpdate_length sin cos G dt s.pendulums
      (List.range s.pendulums.length) (s.theta, s.omega)
    by_cases h2 : s.pendulums.isEmpty <;>
      simpa [computePhysics, h, h2] using hfold

/-- C3: the invariant `len(segments) = len(theta) = len(omega) >= 1` holds in
the initial state and is preserved by the integration step, by
`appendSegment` and by `removeSegment`; in particular the chain is never
empty. -/
theorem chain_invariant {α : Type} [Field α] (sin cos : α → α)
    (G dt IL IM piv : α) (PL : Nat) :
    goodState (initChain IL IM piv : PState α) ∧
    (∀ s : PState α, goodState s → goodState (computePhysics sin cos G dt PL s)) ∧
    (∀ s : PState α, goodState s → goodState (appendSegment IL IM piv s)) ∧
    (∀ s : PState α, goodState s → goodState (removeSegment s)) := by
  refine ⟨by simp [goodState, initChain], ?_, ?_, ?_⟩
  · rintro s ⟨h1, h2, h3⟩
    have hp := computePhysics_pendulums sin cos G dt PL s
    have hl := computePhysics_theta_omega_length sin cos G dt PL s
    refine ⟨?_, ?_, ?_⟩
    · rw [hp, hl.1, h1]
    · rw [hl.1, hl.2, h2]
    · rw [hp]; exact h3
  · rintro s ⟨h1, h2, h3⟩
    have hne : ¬s.pendulums.isEmpty := by
      rw [List.isEmpty_iff]
      intro hnil
      rw [hnil] at h3
      simp at h3
    refine ⟨?_, ?_, ?_⟩ <;> simp [appendSegment, hne] <;> omega
  · rintro s ⟨h1, h2, h3⟩
    by_cases hg : 1 < s.pendulums.length
    · refine ⟨?_, ?_, ?_⟩ <;> simp [removeSegment, hg] <;> omega
    · have hone : s.pendulums.length = 1 := by omega
      refine ⟨?_, ?_, ?_⟩ <;> simp [removeSegment, hg, hone] <;> omega

/-- Witness for C3: the invariant theorem applied to the concrete initial
state over `ℚ` with trivial trigonometric stand-ins. -/
theorem chain_invariant_witness :
    goodState (initChain (1 : ℚ) 1 3) ∧
    goodState (computePhysics id id 0 0 2000 (initChain (1 : ℚ) 1 3)) ∧
    goodState (appendSegment 1 1 3 (initChain (1 : ℚ) 1 3)) ∧
    goodState (removeSegment (initChain (1 : ℚ) 1 3)) := by
  have h := chain_invariant (α := ℚ) id id 0 0 1 1 3 2000
  have h0 : goodState (initChain (1 : ℚ) 1 3) := by simp [goodState, initChain]
  exact ⟨h0, h.2.1 _ h0, h.2.2.1 _ h0, h.2.2.2 _ h0⟩

/-- C5: `removeSegment` on a chain of size 1 leaves the chain unchanged and
clears the trail to length 0; on size > 1 it removes exactly the terminal
element of all three parallel sequences (size decreases by exactly 1) and
leaves the trail unchanged. -/
theorem removeSegment_boundary {α : Type} :
    (∀ (p : α × α) (t w : α) (pv : List α),
      removeSegment (PState.mk [p] [t] [w] pv) = PState.mk [p] [t] [w] []) ∧
    (∀ (p q : α × α) (ps : List (α × α)) (th om pv : List α),
      removeSegment (PState.mk (p :: q :: ps) th om pv) =
        PState.mk (p :: q :: ps).dropLast th.dropLast om.dropLast pv ∧
      (removeSegment (PState.mk (p :: q :: ps) th om pv)).pendulums.length =
        (p :: q :: ps).length - 1) := by
  constructor
  · intro p t w pv
    simp [removeSegment]
  · intro p q ps th om pv
    constructor
    · simp [removeSegment]
    · simp [removeSegment]

/-- C6: `appendSegment` on a (nonempty) chain extends all three parallel
sequences by exactly one element, the first elements are unchanged, the new
terminal segment has length 0.7, mass 1.0, `theta = pi/4`, `omega = 0`, and
the trail buffer is unchanged. -/
theorem appendSegment_adds_terminal (p : ℝ × ℝ) (ps : List (ℝ × ℝ))
    (th om pv : List ℝ) :
    appendSegment (0.7 : ℝ) 1 Real.pi (PState.mk (p :: ps) th om pv) =
      PState.mk ((p :: ps) ++ [((0.7 : ℝ), 1)]) (th ++ [Real.pi / 4]) (om ++ [0]) pv ∧
    ((p :: ps) ++ [((0.7 : ℝ), 1)]).length = (p :: ps).length + 1 ∧
    (th ++ [Real.pi / 4]).length = th.length + 1 ∧
    (om ++ [(0 : ℝ)]).length = om.length + 1 := by
  refine ⟨?_, by simp, by simp, by simp⟩
  simp [appendSegment]

/-- C10: `appendSegment` invoked on an empty chain is a no-op: the
`!pendulums.empty()` guard means no segment is appended and the state is
unchanged. -/
theorem appendSegment_empty_noop {α : Type} [Field α] (IL IM piv : α)
    (th om pv : List α) :
    appendSegment IL IM piv (PState.mk [] th om pv) = PState.mk [] th om pv := by
  simp [appendSegment]

/-- C9: one integration step leaves `pendulums` (the per-segment lengths and
masses, hence also the segment count) exactly unchanged, mutating only
`theta`, `omega` and the trail; `appendSegment` preserves every existing
segment as a prefix; `removeSegment` leaves the surviving segments a prefix
of the old ones.  So a segment's length and mass are never mutated after
creation. -/
theorem segments_immutable {α : Type} [Field α] (sin cos : α → α)
    (G dt IL IM piv : α) (PL : Nat) :
    (∀ s : PState α, (computePhysics sin cos G dt PL s).pendulums = s.pendulums) ∧
    (∀ s : PState α,
      (appendSegment IL IM piv s).pendulums.take s.pendulums.length = s.pendulums) ∧
    (∀ s : PState α,
      (removeSegment s).pendulums =
        s.pendulums.take ((removeSegment s).pendulums.length)) := by
  refine ⟨?_, ?_, ?_⟩
  · intro s
    by_cases h : s.pendulums.length < 2
    · simp [computePhysics, h]
    · by_cases h2 : s.pendulums.isEmpty <;> simp [computePhysics, h, h2]
  · intro s
    by_cases h : s.pendulums.isEmpty
    · rw [List.isEmpty_iff] at h
      simp [appendSegment, h]
    · simp [appendSegment, h, List.take_left]
  · intro s
    by_cases h1 : 1 < s.pendulums.length
    · simp [removeSegment, h1, List.length_dropLast, List.dropLast_eq_take]
    · by_cases h2 : s.pendulums.length = 1 <;>
        simp [removeSegment, h1, h2, List.take_length]

/-- C2: with exactly one segment, one step is semi-implicit Euler with
`a = -(G/L) * sin(theta)`: the velocity is updated first and the position
update uses the new velocity.  In particular from the initial state
(`L = 0.7`, `M = 1`, `theta = pi`, `omega = 0.5`) with `G = 9.81` and
`dt = 0.01`, one step yields `omega = 0.5` and `theta = pi + 0.005`
exactly (in the real-number embedding `sin pi = 0` exactly). -/
theorem computePhysics_single_semiImplicit (L M th0 om0 G dt : ℝ) (PL : Nat)
    (pv : List ℝ) :
    (computePhysics Real.sin Real.cos G dt PL (PState.mk [(L, M)] [th0] [om0] pv)).omega =
      [om0 + -(G / L) * Real.sin th0 * dt] ∧
    (computePhysics Real.sin Real.cos G dt PL (PState.mk [(L, M)] [th0] [om0] pv)).theta =
      [th0 + (om0 + -(G / L) * Real.sin th0 * dt) * dt] ∧
    (computePhysics Real.sin Real.cos 9.81 0.01 PL (initChain 0.7 1 Real.pi)).omega =
      [0.5] ∧
    (computePhysics Real.sin Real.cos 9.81 0.01 PL (initChain 0.7 1 Real.pi)).theta =
      [Real.pi + 0.005] := by
  refine ⟨by simp [computePhysics, neg_div], by simp [computePhysics, neg_div], ?_, ?_⟩
  · simp [computePhysics, initChain, Real.sin_pi]
    norm_num
  · simp [computePhysics, initChain, Real.sin_pi]
    norm_num

lemma tipPositionsAux_length {α : Type} [Field α] (sin cos : α → α) :
    ∀ (l : List ((α × α) × α)) (prev : α × α),
      (tipPositionsAux sin cos prev l).length = l.length := by
  intro l
  induction l with
  | nil => intro prev; rfl
  | cons a rest ih =>
    intro prev
    obtain ⟨seg, t⟩ := a
    simp [tipPositionsAux, ih]

lemma tipPositionsAux_getD_succ {α : Type} [Field α] (sin cos : α → α) :
    ∀ (l : List ((α × α) × α)) (prev : α × α) (i : Nat), i + 1 < l.length →
      (tipPositionsAux sin cos prev l).getD (i + 1) (0, 0) =
        (((tipPositionsAux sin cos prev l).getD i (0, 0)).1 +
            (l.getD (i + 1) ((0, 0), 0)).1.1 * sin (l.getD (i + 1) ((0, 0), 0)).2,
         ((tipPositionsAux sin cos prev l).getD i (0, 0)).2 -
            (l.getD (i + 1) ((0, 0), 0)).1.1 * cos (l.getD (i + 1) ((0, 0), 0)).2) := by
  intro l
  induction l with
  | nil => intro prev i h; simp at h
  | cons a rest ih =>
    intro prev i h
    obtain ⟨seg, t⟩ := a
    cases i with
    | zero =>
      cases rest with
      | nil => simp at h
      | cons b rest2 =>
        obtain ⟨seg2, t2⟩ := b
        simp [tipPositionsAux]
    | succ i =>
      have h2 : i + 1 < rest.length := by simpa using h
      simpa [tipPositionsAux] using ih _ i h2

lemma zip_getD {α β : Type} :
    ∀ (l1 : List α) (l2 : List β) (i : Nat) (d1 : α) (d2 : β),
      i < l1.length → i < l2.length →
      (l1.zip l2).getD i (d1, d2) = (l1.getD i d1, l2.getD i d2) := by
  intro l1
  induction l1 with
  | nil => intro l2 i d1 d2 h1 h2; simp at h1
  | cons a r1 ih =>
    intro l2 i d1 d2 h1 h2
    cases l2 with
    | nil => simp at h2
    | cons b r2 =>
      cases i with
      | zero => simp
      | succ i =>
        have := ih r2 i d1 d2 (by simpa using h1) (by simpa using h2)
        simpa using this

/-- C7: the tip positions follow the forward recurrence from the anchor:
`x_0 = anchorX + L_0*sin(theta_0)`, `y_0 = anchorY - L_0*cos(theta_0)`, and
`x_i = x_(i-1) + L_i*sin(theta_i)`, `y_i = y_(i-1) - L_i*cos(theta_i)`; the
function is pure.  In particular a 1-segment chain with `theta = 0` and
anchor `(0, 0.5)` has terminal tip exactly `(0, 0.5 - L)`. -/
theorem tipPositions_forward_recurrence (pend : List (ℝ × ℝ)) (th : List ℝ)
    (anchor : ℝ × ℝ) (L M : ℝ) (hlen : pend.length = th.length) :
    (tipPositions Real.sin Real.cos anchor pend th).length = pend.length ∧
    (1 ≤ pend.length →
      (tipPositions Real.sin Real.cos anchor pend th).getD 0 (0, 0) =
        (anchor.1 + (pend.getD 0 (0, 0)).1 * Real.sin (th.getD 0 0),
         anchor.2 - (pend.getD 0 (0, 0)).1 * Real.cos (th.getD 0 0))) ∧
    (∀ i : Nat, i + 1 < pend.length →
      (tipPositions Real.sin Real.cos anchor pend th).getD (i + 1) (0, 0) =
        (((tipPositions Real.sin Real.cos anchor pend th).getD i (0, 0)).1 +
            (pend.getD (i + 1) (0, 0)).1 * Real.sin (th.getD (i + 1) 0),
         ((tipPositions Real.sin Real.cos anchor pend th).getD i (0, 0)).2 -
            (pend.getD (i + 1) (0, 0)).1 * Real.cos (th.getD (i + 1) 0))) ∧
    tipPositions Real.sin Real.cos (0, 0.5) [(L, M)] [0] = [(0, 0.5 - L)] := by
  refine ⟨?_, ?_, ?_, ?_⟩
  · rw [tipPositions, tipPositionsAux_length]
    simp [hlen]
  · intro hone
    cases pend with
    | nil => simp at hone
    | cons p rest =>
      cases th with
      | nil => simp at hlen
      | cons t rest2 =>
        obtain ⟨a, b⟩ := p
        simp [tipPositions, tipPositionsAux]
  · intro i hi
    have hz : i + 1 < (pend.zip th).length := by
      simp [List.length_zip, hlen] at hi ⊢
      omega
    have h := tipPositionsAux_getD_succ Real.sin Real.cos (pend.zip th) anchor i hz
    rw [tipPositions, h, zip_getD pend th (i + 1) (0, 0) 0 hi (hlen ▸ hi)]
  · simp [tipPositions, tipPositionsAux]

/-- Witness for C7: the recurrence theorem applied to a concrete 1-segment
chain. -/
theorem tipPositions_forward_recurrence_witness :
    ([((1 : ℝ), 1)].length = [(0 : ℝ)].length) ∧
    (tipPositions Real.sin Real.cos ((0 : ℝ), 1) [((1 : ℝ), 1)] [(0 : ℝ)]).length =
      [((1 : ℝ), 1)].length :=
  ⟨rfl, (tipPositions_forward_recurrence [((1 : ℝ), 1)] [(0 : ℝ)] ((0 : ℝ), 1) 1 1 rfl).1⟩

/-- C8: with every length and mass strictly positive no divisor of the
integration step vanishes: `denom1 = (M1+M2)*L1 - M2*L1*cos(dT)^2` is
strictly positive (it equals `L1*(M1 + M2*sin(dT)^2)`), `denom2 =
(L2/L1)*denom1` is nonzero, and the single-pendulum divisor `L1` is
nonzero; conversely a zero segment length makes `denom1` vanish. -/
theorem denominators_nonzero (M1 M2 L1 L2 dT : ℝ)
    (hM1 : 0 < M1) (hM2 : 0 < M2) (hL1 : 0 < L1) (hL2 : 0 < L2) :
    0 < denom1 M1 M2 L1 (Real.cos dT) ∧
    denom1 M1 M2 L1 (Real.cos dT) ≠ 0 ∧
    denom2 L1 L2 (denom1 M1 M2 L1 (Real.cos dT)) ≠ 0 ∧
    L1 ≠ 0 ∧
    (∀ c M1p M2p : ℝ, denom1 M1p M2p 0 c = 0) := by
  have hc : Real.cos dT * Real.cos dT ≤ 1 := by
    nlinarith [Real.cos_sq_le_one dT]
  have h1 : 0 < denom1 M1 M2 L1 (Real.cos dT) := by
    rw [denom1]
    nlinarith [mul_pos hM1 hL1, mul_nonneg (mul_pos hM2 hL1).le (sub_nonneg.mpr hc)]
  refine ⟨h1, h1.ne', ?_, hL1.ne', ?_⟩
  · rw [denom2]
    exact mul_ne_zero (div_ne_zero hL2.ne' hL1.ne') h1.ne'
  · intro c M1p M2p
    rw [denom1]
    ring

/-- Witness for C8: the divisor theorem at unit masses and lengths. -/
theorem denominators_nonzero_witness :
    (0 : ℝ) < 1 ∧ 0 < denom1 (1 : ℝ) 1 1 (Real.cos 0) :=
  ⟨one_pos, (denominators_nonzero 1 1 1 1 0 one_pos one_pos one_pos one_pos).1⟩

lemma specAccelPair_eq {α : Type} [Field α] (sin cos : α → α)
    (G L1 M1 L2 M2 th1 th2 om1 om2 : α) :
    specAccelPair sin cos G L1 M1 L2 M2 th1 th2 om1 om2 =
      accelPair sin cos G L1 M1 L2 M2 th1 th2 om1 om2 := by
  have hd : (M1 + M2) * L1 - M2 * L1 * cos (th2 - th1) ^ 2 =
      (M1 + M2) * L1 - M2 * L1 * cos (th2 - th1) * cos (th2 - th1) := by ring
  simp only [specAccelPair, accelPair, denom1, denom2, Prod.mk.injEq]
  rw [hd]
  constructor <;> ring

lemma pairUpdate_eq_spec {α : Type} [Field α] (sin cos : α → α) (G dt : α)
    (pend : List (α × α)) (i : Nat) (h : i + 1 < pend.length)
    (tw : List α × List α) :
    pairUpdate sin cos G dt pend i tw = specPairUpdate sin cos G dt pend i tw := by
  rw [pairUpdate, if_pos h, specPairUpdate, specAccelPair_eq]

lemma pairUpdate_last {α : Type} [Field α] (sin cos : α → α) (G dt : α)
    (pend : List (α × α)) (i : Nat) (h : ¬i + 1 < pend.length)
    (tw : List α × List α) :
    pairUpdate sin cos G dt pend i tw = tw := by
  rw [pairUpdate, if_neg h]

lemma foldl_congr_body {β : Type} (f g : β → Nat → β) :
    ∀ (l : List Nat) (b : β), (∀ i ∈ l, ∀ x, f x i = g x i) →
      l.foldl f b = l.foldl g b := by
  intro l
  induction l with
  | nil => intro b _; rfl
  | cons a r ih =>
    intro b h
    rw [List.foldl_cons, List.foldl_cons, h a (by simp)]
    exact ih _ (fun i hi x => h i (by simp [hi]) x)

/-- C1: for a chain of at least two segments, the step's theta/omega update
is exactly the spec's sequential pairwise double-pendulum pass: `i` from
`0` to `count - 2` in increasing order, each iteration computing `(a1, a2)`
from the current (possibly already updated) values and writing
`omega[i]`, `omega[i+1]`, `theta[i]`, `theta[i+1]` in place, so that
iteration `i+1` re-overwrites the entries written by iteration `i`. -/
theorem computePhysics_multi_refines_pairwise {α : Type} [Field α]
    (sin cos : α → α) (G dt : α) (PL : Nat) (p q : α × α)
    (ps : List (α × α)) (th om pv : List α) :
    (computePhysics sin cos G dt PL (PState.mk (p :: q :: ps) th om pv)).theta =
      (specChainStep sin cos G dt (p :: q :: ps) th om).1 ∧
    (computePhysics sin cos G dt PL (PState.mk (p :: q :: ps) th om pv)).omega =
      (specChainStep sin cos G dt (p :: q :: ps) th om).2 := by
  have hguard : ¬(p :: q :: ps).length < 2 := by simp
  have hfold :
      (List.range (p :: q :: ps).length).foldl
        (fun tw i => pairUpdate sin cos G dt (p :: q :: ps) i tw) (th, om) =
      specChainStep sin cos G dt (p :: q :: ps) th om := by
    have hlen : (p :: q :: ps).length = (ps.length + 1) + 1 := by simp
    rw [hlen, List.range_succ, List.foldl_append, List.foldl_cons, List.foldl_nil,
      pairUpdate_last sin cos G dt (p :: q :: ps) (ps.length + 1) (by simp)]
    rw [specChainStep]
    have hlen2 : (p :: q :: ps).length - 1 = ps.length + 1 := by simp
    rw [hlen2]
    exact foldl_congr_body _ _ _ _ (fun i hi x => by
      rw [List.mem_range] at hi
      exact pairUpdate_eq_spec sin cos G dt (p :: q :: ps) i (by simp; omega) x)
  constructor <;> simp only [computePhysics, hguard, if_false, List.isEmpty_cons,
    Bool.false_eq_true, reduceIte] <;> rw [hfold]

lemma computePhysics_path {α : Type} [Field α] (sin cos : α → α) (G dt : α)
    (PL : Nat) (s : PState α) (h : 1 ≤ s.pendulums.length) :
    (computePhysics sin cos G dt PL s).pathVertices =
      pushPath PL
        (chainTip sin cos s.pendulums (computePhysics sin cos G dt PL s).theta).1
        (chainTip sin cos s.pendulums (computePhysics sin cos G dt PL s).theta).2
        s.pathVertices := by
  by_cases h2 : s.pendulums.length < 2
  · have h1 : s.pendulums.length = 1 := by omega
    simp [computePhysics, chainTip, h1, List.range_succ]
  · have hne : s.pendulums.isEmpty = false := by
      cases hp : s.pendulums with
      | nil => rw [hp] at h; simp at h
      | cons a l => rfl
    simp only [computePhysics, if_neg h2, hne, Bool.false_eq_true, reduceIte]

lemma iterate_pendulums {α : Type} [Field α] (sin cos : α → α) (G dt : α)
    (PL : Nat) (s : PState α) :
    ∀ n : Nat, ((computePhysics sin cos G dt PL)^[n] s).pendulums = s.pendulums := by
  intro n
  induction n with
  | zero => rfl
  | succ n ih => rw [Function.iterate_succ_apply', computePhysics_pendulums, ih]

lemma flattenPoints_append {α : Type} (l1 l2 : List (α × α)) :
    flattenPoints (l1 ++ l2) = flattenPoints l1 ++ flattenPoints l2 := by
  induction l1 with
  | nil => rfl
  | cons p r ih => simp [flattenPoints, ih]

lemma tickTips_length {α : Type} [Field α] (sin cos : α → α) (G dt : α)
    (PL : Nat) (s : PState α) (n : Nat) :
    (tickTips sin cos G dt PL s n).length = n := by
  simp [tickTips]

lemma tickTips_succ {α : Type} [Field α] (sin cos : α → α) (G dt : α)
    (PL : Nat) (s : PState α) (n : Nat) :
    tickTips sin cos G dt PL s (n + 1) =
      tickTips sin cos G dt PL s n ++
        [chainTip sin cos ((computePhysics sin cos G dt PL)^[n + 1] s).pendulums
          ((computePhysics sin cos G dt PL)^[n + 1] s).theta] := by
  rw [tickTips, tickTips, List.range_succ, List.map_append]
  rfl

lemma iterate_path_spec {α : Type} [Field α] (sin cos : α → α) (G dt : α)
    (PL : Nat) (s : PState α) (hPL : 1 ≤ PL) (h0 : s.pathVertices = [])
    (h1 : 1 ≤ s.pendulums.length) :
    ∀ n : Nat,
      ((computePhysics sin cos G dt PL)^[n] s).pathVertices.length = 2 * min n PL ∧
      ((computePhysics sin cos G dt PL)^[n] s).pathVertices =
        flattenPoints ((tickTips sin cos G dt PL s n).drop (n - PL)) := by
  intro n
  induction n with
  | zero => simp [h0, tickTips, flattenPoints]
  | succ n ih =>
    obtain ⟨ihlen, iheq⟩ := ih
    have hlen1 : 1 ≤ ((computePhysics sin cos G dt PL)^[n] s).pendulums.length := by
      rw [iterate_pendulums]; exact h1
    have htip : chainTip sin cos
          ((computePhysics sin cos G dt PL)^[n + 1] s).pendulums
          ((computePhysics sin cos G dt PL)^[n + 1] s).theta =
        chainTip sin cos ((computePhysics sin cos G dt PL)^[n] s).pendulums
          (computePhysics sin cos G dt PL
            ((computePhysics sin cos G dt PL)^[n] s)).theta := by
      rw [Function.iterate_succ_apply', computePhysics_pendulums]
    rw [Function.iterate_succ_apply',
      computePhysics_path sin cos G dt PL _ hlen1]
    by_cases hn : PL ≤ n
    · have hevict : PL * 2 ≤
          ((computePhysics sin cos G dt PL)^[n] s).pathVertices.length := by
        rw [ihlen, Nat.min_eq_right hn]; omega
      have hdroplen :
          ((tickTips sin cos G dt PL s n).drop (n - PL)).length = PL := by
        rw [List.length_drop, tickTips_length]; omega
      have hne2 : (tickTips sin cos G dt PL s n).drop (n - PL) ≠ [] := by
        intro hnil
        rw [hnil] at hdroplen
        simp at hdroplen
        omega
      obtain ⟨hd, tl, hcons⟩ := List.exists_cons_of_ne_nil hne2
      have htl : tl = (tickTips sin cos G dt PL s n).drop (n - PL + 1) := by
        rw [← List.tail_drop, hcons]
        rfl
      constructor
      · rw [pushPath, if_pos hevict]
        simp only [List.length_append, List.length_drop, List.length_cons,
          List.length_nil, ihlen]
        omega
      · rw [pushPath, if_pos hevict, iheq, hcons,
          show flattenPoints (hd :: tl) = hd.1 :: hd.2 :: flattenPoints tl from rfl]
        rw [show (hd.1 :: hd.2 :: flattenPoints tl).drop 2 = flattenPoints tl from rfl]
        rw [htl, tickTips_succ,
          List.drop_append_of_le_length (by rw [tickTips_length]; omega),
          flattenPoints_append, htip,
          show n + 1 - PL = n - PL + 1 from by omega]
        rfl
    · have hn' : n < PL := by omega
      have hnoevict : ¬PL * 2 ≤
          ((computePhysics sin cos G dt PL)^[n] s).pathVertices.length := by
        rw [ihlen, Nat.min_eq_left hn'.le]; omega
      constructor
      · rw [pushPath, if_neg hnoevict]
        simp only [List.length_append, List.length_cons, List.length_nil, ihlen]
        omega
      · rw [pushPath, if_neg hnoevict, iheq,
          Nat.sub_eq_zero_of_le hn'.le, Nat.sub_eq_zero_of_le (by omega : n + 1 ≤ PL),
          List.drop_zero, List.drop_zero, tickTips_succ, flattenPoints_append, htip]
        rfl

/-- C4: the trail never exceeds PATH_LIMIT = 2000 points (its flattened
length is `2 * min ticks 2000`, so each tick appends exactly one point, the
terminal tip, evicting exactly the single oldest point once the limit is
reached); after `PATH_LIMIT + 500 = 2500` ticks from an empty trail it
holds exactly the 2000 most recent tip positions in insertion order. -/
theorem trail_bound {α : Type} [Field α] (sin cos : α → α) (G dt : α)
    (s : PState α) (h0 : s.pathVertices = []) (h1 : 1 ≤ s.pendulums.length) :
    ((computePhysics sin cos G dt 2000)^[2500] s).pathVertices =
      flattenPoints ((tickTips sin cos G dt 2000 s 2500).drop 500) ∧
    ((tickTips sin cos G dt 2000 s 2500).drop 500).length = 2000 ∧
    ∀ n : Nat, ((computePhysics sin cos G dt 2000)^[n] s).pathVertices.length =
      2 * min n 2000 := by
  have h := iterate_path_spec sin cos G dt 2000 s (by omega) h0 h1
  refine ⟨?_, ?_, fun n => (h n).1⟩
  · have h2 := (h 2500).2
    have hsub : (2500 : Nat) - 2000 = 500 := by norm_num
    rw [hsub] at h2
    exact h2
  · rw [List.length_drop, tickTips_length]

/-- Witness for C4: the trail-bound theorem applied to a concrete 1-segment
state with an empty trail over `ℚ`. -/
theorem trail_bound_witness :
    (PState.mk [((1 : ℚ), 1)] [0] [0] [] : PState ℚ).pathVertices = [] ∧
    1 ≤ (PState.mk [((1 : ℚ), 1)] [0] [0] [] : PState ℚ).pendulums.length ∧
    ((tickTips id id 0 0 2000 (PState.mk [((1 : ℚ), 1)] [0] [0] []) 2500).drop 500).length =
      2000 :=
  ⟨rfl, by decide, (trail_bound id id 0 0 _ rfl (by decide)).2.1⟩

end Pendulums
